import Mathlib

/-!
Verification of the react-io request-keyed subscription cache, its request
normalizer and the withObservables higher-order component.

The subscription-cache implementation (`useIO.js` / `source/cache`) is not part
of the sources available here; only its test suite and callers are.  Following
the spec (§2-§4.3, §7), the cache, the normalizer and the pruning scheduler are
modelled from the spec's words, instrumented with logs (factory invocations,
unsubscriptions, deliveries to consumers) so that the claimed counting
properties are stateable.  The withObservables component is embedded from its
source file.
-/

namespace ReactIo

/-- Modelled from the spec: the params argument of a request (§4.1).  It is
either absent, a plain key-value mapping, or some non-mapping value (for
example a string such as an HTTP method). -/
inductive ParamsArg where
  | noParams : ParamsArg
  | mapping : List (String × String) → ParamsArg
  | notMapping : String → ParamsArg
deriving DecidableEq, Repr

/-- Serialization of one params pair as `key=value`. -/
def pairSerial (p : String × String) : String := p.1 ++ "=" ++ p.2

/-- Modelled from the spec: the canonical string key of a request (§4.1):
the path followed by the params serialized in a fixed order, so that the key is
stable under key-order-independent equality of params. -/
def canonicalKey (path : String) (m : List (String × String)) : String :=
  path ++ "?" ++ String.intercalate "&" (List.insertionSort (· ≤ ·) (m.map pairSerial))

/-- The error message raised when params is not a mapping, from the test
`throws when passing method`. -/
def invalidParamsMsg : String := "Params must be an object."

/-- Modelled from the spec: request-key normalization (§4.1): fails with the
InvalidParamsError when params is provided but is not a plain key-value
mapping, otherwise produces the canonical key. -/
def normalizeRequest (path : String) : ParamsArg → Except String String
  | .noParams => .ok (canonicalKey path [])
  | .mapping m => .ok (canonicalKey path m)
  | .notMapping _ => .error invalidParamsMsg

/-- Modelled from the spec: a cache entry (§3 DATA MODEL), keyed by canonical
key; `V` is the type of emitted values, `E` the type of emitted errors. -/
structure CacheEntry (V E : Type) where
  refCount : Nat
  pendingRelease : Bool
  lastValue : Option V
  lastError : Option E
deriving DecidableEq, Repr

/-- Modelled from the spec: the handle returned by `acquire` (§4.2), carrying
the per-handle released guard flag. -/
structure Handle where
  id : Nat
  key : String
  released : Bool
deriving DecidableEq, Repr

/-- Modelled from the spec: the subscription cache with its pruning scheduler
(§4.2, §4.3), instrumented with observation logs: `factoryLog` records each
factory invocation by key, `unsubLog` each underlying unsubscription by key,
`delivered` each value or error delivered to a consumer handle. -/
structure CacheState (V E : Type) where
  entries : List (String × CacheEntry V E)
  handles : List Handle
  nextId : Nat
  scheduled : List String
  factoryLog : List String
  unsubLog : List String
  delivered : List (Nat × Sum V E)
deriving DecidableEq, Repr

/-- Look up the entry for a canonical key. -/
def lookupEntry {V E : Type} (k : String) : List (String × CacheEntry V E) → Option (CacheEntry V E)
  | [] => none
  | (k', e) :: rest => if k' = k then some e else lookupEntry k rest

/-- Update the (first) entry for a key in place. -/
def updateEntry {V E : Type} (k : String) (f : CacheEntry V E → CacheEntry V E) :
    List (String × CacheEntry V E) → List (String × CacheEntry V E)
  | [] => []
  | (k', e) :: rest => if k' = k then (k', f e) :: rest else (k', e) :: updateEntry k f rest

/-- Remove the entry for a key. -/
def removeEntry {V E : Type} (k : String) :
    List (String × CacheEntry V E) → List (String × CacheEntry V E)
  | [] => []
  | (k', e) :: rest => if k' = k then removeEntry k rest else (k', e) :: removeEntry k rest

/-- Find a consumer handle by id. -/
def findHandle (i : Nat) : List Handle → Option Handle
  | [] => none
  | x :: hs => if x.id = i then some x else findHandle i hs

/-- Mark the handle with the given id as released. -/
def markReleased (i : Nat) (hs : List Handle) : List Handle :=
  hs.map (fun x => if x.id = i then { x with released := true } else x)

/-- The handles currently attached to a key (not yet released). -/
def liveHandles {V E : Type} (k : String) (s : CacheState V E) : List Handle :=
  s.handles.filter (fun x => x.key == k && !x.released)

/-- Immediate replay of `lastValue`/`lastError` to a newly attached consumer
(§4.2: a handle on an existing entry replays what was already emitted). -/
def replayFor {V E : Type} (i : Nat) (ent : CacheEntry V E) : List (Nat × Sum V E) :=
  (match ent.lastValue with | some v => [(i, Sum.inl v)] | none => []) ++
  (match ent.lastError with | some e => [(i, Sum.inr e)] | none => [])

/-- Modelled from the spec: `acquire(key, factory)` when the factory does not
throw (§4.2): an existing entry (active or pendingRelease) gets `refCount`
incremented and `pendingRelease` cleared, and the new consumer gets the replay
of past emissions; otherwise the factory is invoked exactly once and a fresh
entry with `refCount = 1` is created.  Returns the new handle's id. -/
def acquireOk {V E : Type} (k : String) (s : CacheState V E) : CacheState V E × Nat :=
  match lookupEntry k s.entries with
  | some ent =>
      ({ s with
          entries := updateEntry k
            (fun e => { e with refCount := e.refCount + 1, pendingRelease := false }) s.entries,
          handles := ⟨s.nextId, k, false⟩ :: s.handles,
          nextId := s.nextId + 1,
          delivered := s.delivered ++ replayFor s.nextId ent }, s.nextId)
  | none =>
      ({ s with
          entries := (k, ⟨1, false, none, none⟩) :: s.entries,
          handles := ⟨s.nextId, k, false⟩ :: s.handles,
          nextId := s.nextId + 1,
          factoryLog := k :: s.factoryLog }, s.nextId)

/-- Modelled from the spec: `acquire(key, factory)` with the factory's outcome
made explicit: `.ok ()` means the factory returns a subscription, `.error e`
that it throws synchronously (§4.2 Failure, §7 SourceSynchronousError).  The
factory is only invoked when no entry exists for the key; a synchronous throw
is recorded in `factoryLog` (the factory did run) and propagated, leaving the
cache itself untouched. -/
def acquire {V E : Type} (k : String) (factoryResult : Except E Unit) (s : CacheState V E) :
    CacheState V E × Except E Nat :=
  match lookupEntry k s.entries, factoryResult with
  | some _, _ => ((acquireOk k s).1, Except.ok (acquireOk k s).2)
  | none, .ok _ => ((acquireOk k s).1, Except.ok (acquireOk k s).2)
  | none, .error e => ({ s with factoryLog := k :: s.factoryLog }, Except.error e)

/-- Modelled from the spec: `handle.release()` (§4.2): a no-op on an unknown or
already-released handle (the per-handle released guard); otherwise marks the
handle released and decrements the owning entry's `refCount`; on reaching 0 it
marks `pendingRelease` and registers the key with the pruning scheduler. -/
def release {V E : Type} (i : Nat) (s : CacheState V E) : CacheState V E :=
  match findHandle i s.handles with
  | none => s
  | some hd =>
      if hd.released then s
      else
        match lookupEntry hd.key s.entries with
        | none => { s with handles := markReleased i s.handles }
        | some ent =>
            if ent.refCount - 1 = 0 then
              { s with
                  handles := markReleased i s.handles,
                  entries := updateEntry hd.key
                    (fun e => { e with refCount := ent.refCount - 1, pendingRelease := true })
                    s.entries,
                  scheduled := s.scheduled ++ [hd.key] }
            else
              { s with
                  handles := markReleased i s.handles,
                  entries := updateEntry hd.key
                    (fun e => { e with refCount := ent.refCount - 1 }) s.entries }

/-- Modelled from the spec: one sweep step of `prune()` (§4.3): an entry still
at `refCount == 0` with `pendingRelease` set is unsubscribed and removed;
anything else is skipped. -/
def pruneStep {V E : Type} (s : CacheState V E) (k : String) : CacheState V E :=
  match lookupEntry k s.entries with
  | some ent =>
      if ent.refCount = 0 ∧ ent.pendingRelease = true then
        { s with entries := removeEntry k s.entries, unsubLog := k :: s.unsubLog }
      else s
  | none => s

/-- Modelled from the spec: `prune()` (§4.3): synchronously sweeps all
scheduled entries and unschedules everything (reclaimed entries are skipped
by `pruneStep`). -/
def prune {V E : Type} (s : CacheState V E) : CacheState V E :=
  { s.scheduled.foldl pruneStep s with scheduled := [] }

/-- Modelled from the spec: the source emits a value (§5 fan-out): stored as
`lastValue` and delivered to every currently attached consumer of the key. -/
def emitNext {V E : Type} (k : String) (v : V) (s : CacheState V E) : CacheState V E :=
  match lookupEntry k s.entries with
  | none => s
  | some _ =>
      { s with
          entries := updateEntry k (fun e => { e with lastValue := some v }) s.entries,
          delivered := s.delivered ++ (liveHandles k s).map (fun x => (x.id, Sum.inl v)) }

/-- Modelled from the spec: the source emits an error (§7 SourceAsyncError):
stored as `lastError` and fanned out to every currently attached consumer;
the entry is neither unsubscribed nor removed. -/
def emitError {V E : Type} (k : String) (err : E) (s : CacheState V E) : CacheState V E :=
  match lookupEntry k s.entries with
  | none => s
  | some _ =>
      { s with
          entries := updateEntry k (fun e => { e with lastError := some err }) s.entries,
          delivered := s.delivered ++ (liveHandles k s).map (fun x => (x.id, Sum.inr err)) }

/-- How many times a key occurs in a log. -/
def countKey (k : String) (l : List String) : Nat :=
  (l.filter (fun k' => k' == k)).length

/-- How many times the factory was invoked for a key. -/
def factoryCount {V E : Type} (k : String) (s : CacheState V E) : Nat :=
  countKey k s.factoryLog

/-- How many times the underlying subscription for a key was unsubscribed. -/
def unsubCount {V E : Type} (k : String) (s : CacheState V E) : Nat :=
  countKey k s.unsubLog

/-- A freshly constructed cache (§9: an explicit cache instance). -/
def emptyCache (V E : Type) : CacheState V E := ⟨[], [], 0, [], [], [], []⟩

/-- Iterated acquire: `n` consecutive `acquire` calls for the same key. -/
def iterAcquire {V E : Type} (k : String) : Nat → CacheState V E → CacheState V E
  | 0, s => s
  | n + 1, s => iterAcquire k n (acquireOk k s).1

/-- A single-key acquire/release trace element: `acq` is an `acquire` of the
key under consideration, `rel i` the `release` of the handle with id `i`. -/
inductive AROp where
  | acq : AROp
  | rel : Nat → AROp
deriving DecidableEq, Repr

/-- Run an acquire/release trace for one key against the cache. -/
def runAR {V E : Type} (k : String) (s : CacheState V E) : List AROp → CacheState V E
  | [] => s
  | AROp.acq :: t => runAR k (acquireOk k s).1 t
  | AROp.rel i :: t => runAR k (release i s) t

/-- An acquire/release trace is valid when every release targets a handle that
was acquired earlier in the trace and not yet released ("any order respecting
acquire-before-its-release"): `live` holds the currently unreleased handle ids
and `nid` the next fresh handle id. -/
def validFrom (live : List Nat) (nid : Nat) : List AROp → Bool
  | [] => true
  | AROp.acq :: t => validFrom (nid :: live) (nid + 1) t
  | AROp.rel i :: t => live.contains i && validFrom (live.erase i) nid t

/-- The unreleased handle ids (and next fresh id) left after a trace. -/
def finalLive (live : List Nat) (nid : Nat) : List AROp → List Nat × Nat
  | [] => (live, nid)
  | AROp.acq :: t => finalLive (nid :: live) (nid + 1) t
  | AROp.rel i :: t => finalLive (live.erase i) nid t

/-- The reserved control keys of `useIO` params: `startWith` and
`returnStateWrapper` are consumed by the hook, never forwarded to the source
(tests `renders immediately if passed a starting value as startWith` and
`returns state wrapper` in src/unnamed/part_000). -/
def isControlKey (k : String) : Bool := k == "startWith" || k == "returnStateWrapper"

/-- Modelled from the spec: the params actually handed to the source, with the
reserved control keys stripped. -/
def sourceParams (m : List (String × String)) : List (String × String) :=
  m.filter (fun p => !isControlKey p.1)

/-- The first value bound to a params key. -/
def getParam (k : String) (m : List (String × String)) : Option String :=
  (m.find? (fun p => p.1 == k)).map (fun p => p.2)

/-- Modelled from the spec: the request handed to the underlying source by
`useIO`: the path together with the stripped params. -/
def useIORequest (path : String) (m : List (String × String)) :
    String × List (String × String) :=
  (path, sourceParams m)

/-- Modelled from the spec: the value `useIO` renders: the entry's last emitted
value once the source has emitted, before that the `startWith` value when one
was given. -/
def useIOView (m : List (String × String)) (lastValue : Option String) : Option String :=
  match lastValue with
  | some v => some v
  | none => getParam "startWith" m

/-- Modelled from the spec: the synchronous start of a `useIO` call: normalize
the request, then acquire from the cache; a normalization failure surfaces to
the immediate caller untouched, and the cache is never reached. -/
def useIOStart {V : Type} (path : String) (p : ParamsArg) (factoryResult : Except String Unit)
    (s : CacheState V String) : CacheState V String × Except String Nat :=
  match normalizeRequest path p with
  | .error msg => (s, Except.error msg)
  | .ok k => acquire k factoryResult s

/-- The single-key consistency relation between a cache state and the list
`live` of currently attached (acquired, unreleased) handle ids for key `k`:
the entry exists with `refCount` equal to the number of attached consumers,
`pendingRelease` exactly when none is left, the attached handles are exactly
`live`, and a fully released entry is registered with the pruning scheduler. -/
structure ARInv {V E : Type} (k : String) (s : CacheState V E) (live : List Nat) : Prop where
  entry : ∃ ent, lookupEntry k s.entries = some ent ∧ ent.refCount = live.length ∧
    (ent.pendingRelease = true ↔ live = [])
  liveIff : ∀ i : Nat,
    (∃ hd, findHandle i s.handles = some hd ∧ hd.key = k ∧ hd.released = false) ↔ i ∈ live
  liveLt : ∀ i ∈ live, i < s.nextId
  nodup : live.Nodup
  sched : live = [] → k ∈ s.scheduled

/-- A sample cache state with one entry at key "/a" holding two consumers. -/
def sampleState : CacheState Nat Nat :=
  ⟨[("/a", ⟨2, false, some 5, none⟩)], [⟨0, "/a", false⟩, ⟨1, "/a", false⟩], 2, [], ["/a"], [], []⟩

/-- A subscription event on the shared combined observable, as performed by
`WithObservables` (src/unnamed/part_001). -/
inductive SubEvent where
  | sub : Nat → SubEvent
  | unsub : Nat → SubEvent
deriving DecidableEq, Repr

/-- The set of active subscriptions on the shared observable after one event. -/
def applyEvent (active : List Nat) : SubEvent → List Nat
  | SubEvent.sub i => i :: active
  | SubEvent.unsub i => active.filter (fun j => j != i)

/-- The active subscriptions after a sequence of events. -/
def applyEvents (active : List Nat) (es : List SubEvent) : List Nat :=
  es.foldl applyEvent active

/-- Embedded from `WithObservables.subscribe` (src/unnamed/part_001 lines
22-51): the subscription events of one `subscribe(props)` call, in source
order: the new combined observable is subscribed first, and only then is the
previous subscription — when one exists — unsubscribed ("Important that
unsubscribe happens after subscribe"). -/
def subscribeEvents (prev : Option Nat) (newId : Nat) : List SubEvent :=
  SubEvent.sub newId :: (match prev with | some p => [SubEvent.unsub p] | none => [])

/-- Embedded from `WithObservables.componentWillUnmount` (src/unnamed/part_001
lines 72-74): unmount unsubscribes the current subscription. -/
def unmountEvents (cur : Nat) : List SubEvent := [SubEvent.unsub cur]

theorem insertionSort_eq_of_perm {l₁ l₂ : List String} (h : l₁.Perm l₂) :
    List.insertionSort (· ≤ ·) l₁ = List.insertionSort (· ≤ ·) l₂ :=
  List.eq_of_perm_of_sorted
    (((List.perm_insertionSort _ l₁).trans h).trans (List.perm_insertionSort _ l₂).symm)
    (List.sorted_insertionSort _ l₁) (List.sorted_insertionSort _ l₂)

theorem canonicalKey_perm (path : String) {m₁ m₂ : List (String × String)}
    (h : m₁.Perm m₂) : canonicalKey path m₁ = canonicalKey path m₂ := by
  unfold canonicalKey
  rw [insertionSort_eq_of_perm (h.map pairSerial)]

theorem lookupEntry_update_self {V E : Type} (k : String) (f : CacheEntry V E → CacheEntry V E) :
    ∀ es : List (String × CacheEntry V E),
      lookupEntry k (updateEntry k f es) = (lookupEntry k es).map f := by
  intro es
  induction es with
  | nil => rfl
  | cons p rest ih =>
    obtain ⟨k', e⟩ := p
    by_cases h : k' = k
    · simp [updateEntry, lookupEntry, h]
    · simp [updateEntry, lookupEntry, h, ih]

theorem lookupEntry_update_ne {V E : Type} {k k' : String} (hne : k' ≠ k)
    (f : CacheEntry V E → CacheEntry V E) :
    ∀ es : List (String × CacheEntry V E),
      lookupEntry k' (updateEntry k f es) = lookupEntry k' es := by
  intro es
  induction es with
  | nil => rfl
  | cons p rest ih =>
    obtain ⟨k'', e⟩ := p
    by_cases h : k'' = k
    · subst h
      simp [updateEntry, lookupEntry, Ne.symm hne, ih]
    · by_cases h' : k'' = k'
      · simp [updateEntry, lookupEntry, h, h', hne]
      · simp [updateEntry, lookupEntry, h, h', ih]

theorem lookupEntry_remove_self {V E : Type} (k : String) :
    ∀ es : List (String × CacheEntry V E), lookupEntry k (removeEntry k es) = none := by
  intro es
  induction es with
  | nil => rfl
  | cons p rest ih =>
    obtain ⟨k', e⟩ := p
    by_cases h : k' = k
    · simp [removeEntry, h, ih]
    · simp [removeEntry, lookupEntry, h, ih]

theorem lookupEntry_remove_ne {V E : Type} {k a : String} (hne : k ≠ a) :
    ∀ es : List (String × CacheEntry V E),
      lookupEntry k (removeEntry a es) = lookupEntry k es := by
  intro es
  induction es with
  | nil => rfl
  | cons p rest ih =>
    obtain ⟨k', e⟩ := p
    by_cases h : k' = a
    · subst h
      simp [removeEntry, lookupEntry, Ne.symm hne, ih]
    · by_cases h' : k' = k
      · simp [removeEntry, lookupEntry, h, h', hne]
      · simp [removeEntry, lookupEntry, h, h', ih]

theorem findHandle_id {i : Nat} : ∀ {hs : List Handle} {hd : Handle},
    findHandle i hs = some hd → hd.id = i := by
  intro hs
  induction hs with
  | nil => intro hd h; simp [findHandle] at h
  | cons x rest ih =>
    intro hd h
    by_cases hx : x.id = i
    · simp [findHandle, hx] at h
      rw [← h]
      exact hx
    · simp [findHandle, hx] at h
      exact ih h

theorem findHandle_mem {i : Nat} : ∀ {hs : List Handle} {hd : Handle},
    findHandle i hs = some hd → hd ∈ hs := by
  intro hs
  induction hs with
  | nil => intro hd h; simp [findHandle] at h
  | cons x rest ih =>
    intro hd h
    by_cases hx : x.id = i
    · simp [findHandle, hx] at h
      simp [← h]
    · simp [findHandle, hx] at h
      exact List.mem_cons_of_mem x (ih h)

theorem findHandle_cons (j : Nat) (x : Handle) (hs : List Handle) :
    findHandle j (x :: hs) = if x.id = j then some x else findHandle j hs := rfl

theorem findHandle_markReleased (i j : Nat) :
    ∀ hs : List Handle, findHandle j (markReleased i hs) =
      (findHandle j hs).map (fun x => if x.id = i then { x with released := true } else x) := by
  intro hs
  induction hs with
  | nil => rfl
  | cons x rest ih =>
    have hmr : markReleased i (x :: rest) =
        (if x.id = i then { x with released := true } else x) :: markReleased i rest := rfl
    rw [hmr, findHandle_cons, findHandle_cons]
    have hid : (if x.id = i then { x with released := true } else x).id = x.id := by
      by_cases hxi : x.id = i <;> simp [hxi]
    rw [hid]
    by_cases hx : x.id = j
    · rw [if_pos hx, if_pos hx]
      rfl
    · rw [if_neg hx, if_neg hx]
      exact ih

theorem countKey_cons_self (k : String) (l : List String) :
    countKey k (k :: l) = countKey k l + 1 := by
  simp [countKey, List.filter]

theorem countKey_cons_ne {k a : String} (h : a ≠ k) (l : List String) :
    countKey k (a :: l) = countKey k l := by
  have hb : (a == k) = false := by
    simp [h]
  simp [countKey, List.filter, hb]

theorem acquireOk_existing {V E : Type} {k : String} {s : CacheState V E} {ent : CacheEntry V E}
    (h : lookupEntry k s.entries = some ent) :
    lookupEntry k (acquireOk k s).1.entries =
      some { ent with refCount := ent.refCount + 1, pendingRelease := false } ∧
    (acquireOk k s).1.factoryLog = s.factoryLog ∧
    (acquireOk k s).1.unsubLog = s.unsubLog := by
  refine ⟨?_, by simp [acquireOk, h], by simp [acquireOk, h]⟩
  rw [show (acquireOk k s).1.entries = updateEntry k
      (fun e => { e with refCount := e.refCount + 1, pendingRelease := false }) s.entries by
    simp [acquireOk, h]]
  rw [lookupEntry_update_self, h]
  rfl

theorem acquireOk_fresh {V E : Type} {k : String} {s : CacheState V E}
    (h : lookupEntry k s.entries = none) :
    lookupEntry k (acquireOk k s).1.entries = some ⟨1, false, none, none⟩ ∧
    (acquireOk k s).1.factoryLog = k :: s.factoryLog ∧
    (acquireOk k s).1.unsubLog = s.unsubLog := by
  simp [acquireOk, h, lookupEntry]

theorem iterAcquire_existing {V E : Type} (k : String) :
    ∀ (n : Nat) (s : CacheState V E) (ent : CacheEntry V E),
      lookupEntry k s.entries = some ent →
      (iterAcquire k n s).factoryLog = s.factoryLog ∧
      (iterAcquire k n s).unsubLog = s.unsubLog ∧
      ∃ ent', lookupEntry k (iterAcquire k n s).entries = some ent' ∧
        ent'.refCount = ent.refCount + n := by
  intro n
  induction n with
  | zero =>
    intro s ent h
    exact ⟨rfl, rfl, ent, h, rfl⟩
  | succ m ih =>
    intro s ent h
    obtain ⟨h1, h2, h3⟩ := acquireOk_existing h
    obtain ⟨ih1, ih2, ent', ih3, ih4⟩ := ih (acquireOk k s).1 _ h1
    have hstep : iterAcquire k (m + 1) s = iterAcquire k m (acquireOk k s).1 := rfl
    have h4 : ent'.refCount = ent.refCount + 1 + m := ih4
    refine ⟨by rw [hstep, ih1, h2], by rw [hstep, ih2, h3], ent', by rw [hstep]; exact ih3, by omega⟩

/-- C1: for every canonical key, at most one underlying subscription exists:
for `n ≥ 1` acquire calls with the same (previously absent) key, the factory
is invoked exactly once and the entry's refCount equals `n`. -/
theorem single_subscription_per_key {V E : Type} (k : String) (n : Nat) (s : CacheState V E)
    (hfresh : lookupEntry k s.entries = none) (hn : 1 ≤ n) :
    factoryCount k (iterAcquire k n s) = factoryCount k s + 1 ∧
    ∃ ent, lookupEntry k (iterAcquire k n s).entries = some ent ∧ ent.refCount = n := by
  obtain ⟨m, rfl⟩ : ∃ m, n = m + 1 := ⟨n - 1, by omega⟩
  obtain ⟨h1, h2, h3⟩ := acquireOk_fresh hfresh
  obtain ⟨ih1, ih2, ent', ih3, ih4⟩ := iterAcquire_existing k m (acquireOk k s).1 _ h1
  have hstep : iterAcquire k (m + 1) s = iterAcquire k m (acquireOk k s).1 := rfl
  have h4 : ent'.refCount = 1 + m := ih4
  constructor
  · rw [factoryCount, hstep, ih1, h2, countKey_cons_self]
    rfl
  · exact ⟨ent', by rw [hstep]; exact ih3, by omega⟩

theorem single_subscription_per_key_witness :
    lookupEntry "/a" (emptyCache Nat Nat).entries = none ∧ 1 ≤ 3 ∧
    factoryCount "/a" (iterAcquire "/a" 3 (emptyCache Nat Nat)) =
      factoryCount "/a" (emptyCache Nat Nat) + 1 ∧
    ∃ ent, lookupEntry "/a" (iterAcquire "/a" 3 (emptyCache Nat Nat)).entries = some ent ∧
      ent.refCount = 3 := by
  have h := single_subscription_per_key "/a" 3 (emptyCache Nat Nat) rfl (by decide)
  exact ⟨rfl, by decide, h.1, h.2⟩

/-- C3: grace-period reuse: `acquire(k)`, `release()`, `acquire(k)` before any
`prune()` re-invokes neither the factory (exactly one factory call in total)
nor the underlying unsubscribe (zero unsubscribe calls); the re-attach cancels
the pending release and brings refCount back to 1. -/
theorem grace_period_reuse {V E : Type} (k : String) (s : CacheState V E)
    (h : lookupEntry k s.entries = none) :
    (∃ ent, lookupEntry k (release (acquireOk k s).2 (acquireOk k s).1).entries = some ent ∧
      ent.refCount = 0 ∧ ent.pendingRelease = true) ∧
    (∃ ent,
      lookupEntry k (acquireOk k (release (acquireOk k s).2 (acquireOk k s).1)).1.entries =
        some ent ∧ ent.refCount = 1 ∧ ent.pendingRelease = false) ∧
    factoryCount k (acquireOk k (release (acquireOk k s).2 (acquireOk k s).1)).1 =
      factoryCount k s + 1 ∧
    unsubCount k (acquireOk k (release (acquireOk k s).2 (acquireOk k s).1)).1 =
      unsubCount k s := by
  simp only [acquireOk, h]
  simp [release, findHandle_cons, lookupEntry, updateEntry, acquireOk, factoryCount,
    unsubCount, countKey_cons_self, replayFor]

theorem grace_period_reuse_witness :
    lookupEntry "/a" (emptyCache Nat Nat).entries = none ∧
    (∃ ent,
      lookupEntry "/a"
        (release (acquireOk "/a" (emptyCache Nat Nat)).2
          (acquireOk "/a" (emptyCache Nat Nat)).1).entries = some ent ∧
      ent.refCount = 0 ∧ ent.pendingRelease = true) ∧
    factoryCount "/a"
      (acquireOk "/a"
        (release (acquireOk "/a" (emptyCache Nat Nat)).2
          (acquireOk "/a" (emptyCache Nat Nat)).1)).1 =
      factoryCount "/a" (emptyCache Nat Nat) + 1 := by
  have h := grace_period_reuse "/a" (emptyCache Nat Nat) rfl
  exact ⟨rfl, h.1, h.2.2.1⟩

/-- C7: request key normalization is a pure deterministic function, stable
under key-order-independent equality of params: normalizing a params mapping
twice yields the same canonical key, and two params mappings with the same
keys and values in different insertion order normalize to the same key. -/
theorem key_normalization_stable (path : String) (m₁ m₂ : List (String × String))
    (h : m₁.Perm m₂) :
    normalizeRequest path (ParamsArg.mapping m₁) = normalizeRequest path (ParamsArg.mapping m₁) ∧
    normalizeRequest path (ParamsArg.mapping m₁) = normalizeRequest path (ParamsArg.mapping m₂) :=
  ⟨rfl, by simp [normalizeRequest, canonicalKey_perm path h]⟩

theorem key_normalization_stable_witness :
    [("a", "1"), ("b", "2")].Perm [("b", "2"), ("a", "1")] ∧
    normalizeRequest "/p" (ParamsArg.mapping [("a", "1"), ("b", "2")]) =
      normalizeRequest "/p" (ParamsArg.mapping [("b", "2"), ("a", "1")]) := by
  have hp : [("a", "1"), ("b", "2")].Perm [("b", "2"), ("a", "1")] :=
    List.Perm.swap _ _ _
  exact ⟨hp, (key_normalization_stable "/p" _ _ hp).2⟩

/-- C5: for every path, a params argument that is not a plain key-value
mapping makes normalization fail synchronously with the InvalidParamsError
message; the error is never recovered internally and surfaces to the
immediate caller of the hook unchanged, leaving the cache untouched. -/
theorem invalid_params_always_surfaces {V : Type} (path str : String)
    (factoryResult : Except String Unit) (s : CacheState V String) :
    normalizeRequest path (ParamsArg.notMapping str) = Except.error invalidParamsMsg ∧
    useIOStart path (ParamsArg.notMapping str) factoryResult s =
      (s, Except.error invalidParamsMsg) :=
  ⟨rfl, rfl⟩

/-- C4: when the factory throws synchronously during `acquire` on a key with
no entry, the exception propagates synchronously to the caller, no cache entry
is created for the key, and no leftover state remains: entries, handles,
scheduler queue, id counter, deliveries and unsubscription log are unchanged. -/
theorem sync_throw_leaves_cache_unchanged {V E : Type} (k : String) (e : E)
    (s : CacheState V E) (h : lookupEntry k s.entries = none) :
    (acquire k (Except.error e) s).2 = Except.error e ∧
    (acquire k (Except.error e) s).1.entries = s.entries ∧
    (acquire k (Except.error e) s).1.handles = s.handles ∧
    (acquire k (Except.error e) s).1.scheduled = s.scheduled ∧
    (acquire k (Except.error e) s).1.nextId = s.nextId ∧
    (acquire k (Except.error e) s).1.unsubLog = s.unsubLog ∧
    (acquire k (Except.error e) s).1.delivered = s.delivered ∧
    lookupEntry k (acquire k (Except.error e) s).1.entries = none := by
  simp [acquire, h]

theorem sync_throw_leaves_cache_unchanged_witness :
    lookupEntry "/a" (emptyCache Nat Nat).entries = none ∧
    (acquire "/a" (Except.error 7) (emptyCache Nat Nat)).2 = Except.error 7 ∧
    lookupEntry "/a" (acquire "/a" (Except.error 7) (emptyCache Nat Nat)).1.entries = none := by
  have h := sync_throw_leaves_cache_unchanged "/a" 7 (emptyCache Nat Nat) rfl
  exact ⟨rfl, h.1, h.2.2.2.2.2.2.2⟩

/-- C6: when the underlying source emits an error after subscription, the
error is stored as `lastError` on the entry and fanned out to all currently
attached consumers; the previously stored `lastValue` is preserved alongside
it, and the error by itself neither unsubscribes the underlying subscription
nor removes the entry (refCount and pendingRelease are untouched too). -/
theorem async_error_fanout_preserves_value {V E : Type} (k : String) (err : E)
    (s : CacheState V E) (ent : CacheEntry V E) (h : lookupEntry k s.entries = some ent) :
    (∃ ent', lookupEntry k (emitError k err s).entries = some ent' ∧
      ent'.lastError = some err ∧
      ent'.lastValue = ent.lastValue ∧
      ent'.refCount = ent.refCount ∧
      ent'.pendingRelease = ent.pendingRelease) ∧
    (emitError k err s).unsubLog = s.unsubLog ∧
    (emitError k err s).delivered =
      s.delivered ++ (liveHandles k s).map (fun x => (x.id, Sum.inr err)) := by
  refine ⟨⟨{ ent with lastError := some err }, ?_, rfl, rfl, rfl, rfl⟩, ?_, ?_⟩
  · rw [show (emitError k err s).entries =
        updateEntry k (fun e => { e with lastError := some err }) s.entries by
      simp [emitError, h]]
    rw [lookupEntry_update_self, h]
    rfl
  · simp [emitError, h]
  · simp [emitError, h]

theorem async_error_fanout_preserves_value_witness :
    lookupEntry "/a" sampleState.entries = some ⟨2, false, some 5, none⟩ ∧
    (∃ ent', lookupEntry "/a" (emitError "/a" 9 sampleState).entries = some ent' ∧
      ent'.lastError = some 9 ∧ ent'.lastValue = some 5 ∧ ent'.refCount = 2 ∧
      ent'.pendingRelease = false) ∧
    (emitError "/a" 9 sampleState).unsubLog = sampleState.unsubLog := by
  have h := async_error_fanout_preserves_value "/a" 9 sampleState ⟨2, false, some 5, none⟩ rfl
  exact ⟨rfl, h.1, h.2.1⟩

/-- C10: `useIO` strips the reserved `startWith` control key from the params
before the request reaches the source: with params containing only
`startWith`, the source receives an empty params mapping, and the starting
value is rendered immediately, before and until the source's first emission,
after which the emitted value is rendered. -/
theorem startWith_stripped_and_rendered (path w : String) :
    (useIORequest path [("startWith", w)]).2 = [] ∧
    useIOView [("startWith", w)] none = some w ∧
    (∀ v, useIOView [("startWith", w)] (some v) = some v) :=
  ⟨rfl, rfl, fun _ => rfl⟩

theorem release_not_found {V E : Type} {i : Nat} {s : CacheState V E}
    (hf : findHandle i s.handles = none) : release i s = s := by
  simp [release, hf]

theorem release_no_op {V E : Type} {i : Nat} {s : CacheState V E} {hd : Handle}
    (hf : findHandle i s.handles = some hd) (hr : hd.released = true) : release i s = s := by
  simp [release, hf, hr]

theorem release_handles {V E : Type} (i : Nat) (s : CacheState V E) {hd : Handle}
    (hf : findHandle i s.handles = some hd) (hr : hd.released = false) :
    (release i s).handles = markReleased i s.handles := by
  cases hl : lookupEntry hd.key s.entries with
  | none => simp [release, hf, hr, hl]
  | some ent =>
    by_cases hc : ent.refCount - 1 = 0
    · simp [release, hf, hr, hl, hc]
    · simp [release, hf, hr, hl, hc]

theorem foldl_pruneStep_preserve {V E : Type} (k : String) :
    ∀ (l : List String) (s : CacheState V E) (ent : CacheEntry V E),
      lookupEntry k (l.foldl pruneStep s).entries = some ent →
      lookupEntry k s.entries = some ent := by
  intro l
  induction l with
  | nil =>
    intro s ent h
    exact h
  | cons a l ih =>
    intro s ent h
    have h2 := ih (pruneStep s a) ent h
    cases hl : lookupEntry a s.entries with
    | none =>
      rw [show pruneStep s a = s by simp [pruneStep, hl]] at h2
      exact h2
    | some enta =>
      by_cases hc : enta.refCount = 0 ∧ enta.pendingRelease = true
      · have hps : (pruneStep s a).entries = removeEntry a s.entries := by
          simp [pruneStep, hl, hc]
        rw [hps] at h2
        by_cases hka : k = a
        · subst hka
          rw [lookupEntry_remove_self] at h2
          cases h2
        · rw [lookupEntry_remove_ne hka] at h2
          exact h2
      · rw [show pruneStep s a = s by simp [pruneStep, hl, hc]] at h2
        exact h2

/-- C8: an entry's refCount never drops below its true value: release is
guarded by the per-handle released flag, so a double release of the same
handle is a no-op; refCount increases (by exactly one) only on consumer
attach, decreases (by exactly one) only on an effective consumer detach, and
is untouched by emissions; pruning never rewrites a surviving entry.  (The
model's refCount lives in ℕ, matching the data model's `integer ≥ 0`.) -/
theorem refcount_discipline {V E : Type} (s : CacheState V E) (i : Nat) (k : String) :
    release i (release i s) = release i s ∧
    (∀ ent, lookupEntry k s.entries = some ent →
      lookupEntry k (acquireOk k s).1.entries =
        some { ent with refCount := ent.refCount + 1, pendingRelease := false }) ∧
    (lookupEntry k s.entries = none →
      lookupEntry k (acquireOk k s).1.entries = some ⟨1, false, none, none⟩) ∧
    (∀ hd ent, findHandle i s.handles = some hd → hd.released = false →
      lookupEntry hd.key s.entries = some ent →
      ∃ ent', lookupEntry hd.key (release i s).entries = some ent' ∧
        ent'.refCount = ent.refCount - 1) ∧
    (∀ hd, findHandle i s.handles = some hd → hd.released = true → release i s = s) ∧
    (∀ (k' : String) (v : V) (ent : CacheEntry V E), lookupEntry k s.entries = some ent →
      ∃ ent', lookupEntry k (emitNext k' v s).entries = some ent' ∧
        ent'.refCount = ent.refCount ∧ ent'.pendingRelease = ent.pendingRelease) ∧
    (∀ (k' : String) (err : E) (ent : CacheEntry V E), lookupEntry k s.entries = some ent →
      ∃ ent', lookupEntry k (emitError k' err s).entries = some ent' ∧
        ent'.refCount = ent.refCount ∧ ent'.pendingRelease = ent.pendingRelease) ∧
    (∀ ent, lookupEntry k (prune s).entries = some ent →
      lookupEntry k s.entries = some ent) := by
  refine ⟨?_, ?_, ?_, ?_, ?_, ?_, ?_, ?_⟩
  · -- double release is a no-op
    cases hf : findHandle i s.handles with
    | none => simp [release_not_found hf]
    | some hd =>
      cases hr : hd.released with
      | true => simp [release_no_op hf hr]
      | false =>
        have hfind2 : findHandle i (release i s).handles = some { hd with released := true } := by
          rw [release_handles i s hf hr, findHandle_markReleased, hf]
          simp [findHandle_id hf]
        exact release_no_op hfind2 rfl
  · -- attach to an existing entry increments refCount by one
    intro ent h
    exact (acquireOk_existing h).1
  · -- attach to a fresh key creates refCount = 1
    intro h
    exact (acquireOk_fresh h).1
  · -- effective detach decrements refCount by one
    intro hd ent hf hr hl
    by_cases hc : ent.refCount - 1 = 0
    · refine ⟨{ ent with refCount := ent.refCount - 1, pendingRelease := true }, ?_, rfl⟩
      rw [show (release i s).entries = updateEntry hd.key
          (fun e => { e with refCount := ent.refCount - 1, pendingRelease := true }) s.entries by
        simp [release, hf, hr, hl, hc]]
      rw [lookupEntry_update_self, hl]
      rfl
    · refine ⟨{ ent with refCount := ent.refCount - 1 }, ?_, rfl⟩
      rw [show (release i s).entries = updateEntry hd.key
          (fun e => { e with refCount := ent.refCount - 1 }) s.entries by
        simp [release, hf, hr, hl, hc]]
      rw [lookupEntry_update_self, hl]
      rfl
  · -- double-release guard
    intro hd hf hr
    exact release_no_op hf hr
  · -- value emissions do not change refCount or pendingRelease
    intro k' v ent hl
    cases hl' : lookupEntry k' s.entries with
    | none =>
      refine ⟨ent, ?_, rfl, rfl⟩
      rw [show emitNext k' v s = s by simp [emitNext, hl']]
      exact hl
    | some entk' =>
      by_cases hkk : k = k'
      · subst hkk
        have he : entk' = ent := by
          rw [hl'] at hl
          exact Option.some.inj hl
        subst he
        refine ⟨{ entk' with lastValue := some v }, ?_, rfl, rfl⟩
        rw [show (emitNext k v s).entries =
            updateEntry k (fun e => { e with lastValue := some v }) s.entries by
          simp [emitNext, hl']]
        rw [lookupEntry_update_self, hl']
        rfl
      · refine ⟨ent, ?_, rfl, rfl⟩
        rw [show (emitNext k' v s).entries =
            updateEntry k' (fun e => { e with lastValue := some v }) s.entries by
          simp [emitNext, hl']]
        rw [lookupEntry_update_ne hkk]
        exact hl
  · -- error emissions do not change refCount or pendingRelease
    intro k' err ent hl
    cases hl' : lookupEntry k' s.entries with
    | none =>
      refine ⟨ent, ?_, rfl, rfl⟩
      rw [show emitError k' err s = s by simp [emitError, hl']]
      exact hl
    | some entk' =>
      by_cases hkk : k = k'
      · subst hkk
        have he : entk' = ent := by
          rw [hl'] at hl
          exact Option.some.inj hl
        subst he
        refine ⟨{ entk' with lastError := some err }, ?_, rfl, rfl⟩
        rw [show (emitError k err s).entries =
            updateEntry k (fun e => { e with lastError := some err }) s.entries by
          simp [emitError, hl']]
        rw [lookupEntry_update_self, hl']
        rfl
      · refine ⟨ent, ?_, rfl, rfl⟩
        rw [show (emitError k' err s).entries =
            updateEntry k' (fun e => { e with lastError := some err }) s.entries by
          simp [emitError, hl']]
        rw [lookupEntry_update_ne hkk]
        exact hl
  · -- prune never rewrites a surviving entry
    intro ent h
    exact foldl_pruneStep_preserve k s.scheduled s ent h

theorem refcount_discipline_witness :
    release 0 (release 0 sampleState) = release 0 sampleState ∧
    lookupEntry "/a" (acquireOk "/a" sampleState).1.entries = some ⟨3, false, some 5, none⟩ ∧
    (∃ ent', lookupEntry "/a" (release 0 sampleState).entries = some ent' ∧
      ent'.refCount = 1) := by
  have h := refcount_discipline sampleState 0 "/a"
  refine ⟨h.1, h.2.1 ⟨2, false, some 5, none⟩ rfl, ?_⟩
  exact h.2.2.2.1 ⟨0, "/a", false⟩ ⟨2, false, some 5, none⟩ rfl rfl rfl

/-- C9: in `WithObservables`, a props update subscribes to the new combined
observable before unsubscribing the previous subscription (the order embedded
in `subscribeEvents`), so the set of active subscriptions is nonempty at every
intermediate point of the update — a shared cached observable never
transiently reaches zero subscribers; the new subscription is active
afterwards, and unmount unsubscribes the current subscription. -/
theorem update_subscribes_before_unsubscribing (active : List Nat) (prev newId : Nat)
    (hprev : prev ∈ active) (hfresh : newId ∉ active) :
    (∀ a ∈ List.scanl applyEvent active (subscribeEvents (some prev) newId), a ≠ []) ∧
    newId ∈ applyEvents active (subscribeEvents (some prev) newId) ∧
    (∀ (cur : Nat) (act : List Nat), cur ∉ applyEvents act (unmountEvents cur)) := by
  have hne : newId ≠ prev := fun he => hfresh (he ▸ hprev)
  refine ⟨?_, ?_, ?_⟩
  · intro a ha
    simp only [subscribeEvents, List.scanl, List.mem_cons, List.mem_singleton,
      List.not_mem_nil, or_false] at ha
    rcases ha with h1 | h2 | h3
    · subst h1
      exact List.ne_nil_of_mem hprev
    · subst h2
      simp [applyEvent]
    · subst h3
      refine List.ne_nil_of_mem (a := newId) ?_
      simp [applyEvent, List.mem_filter, hne]
  · simp [subscribeEvents, applyEvents, applyEvent, List.mem_filter, hne]
  · intro cur act
    simp [unmountEvents, applyEvents, applyEvent, List.mem_filter]

theorem update_subscribes_before_unsubscribing_witness :
    0 ∈ [0] ∧ ¬(1 ∈ [0]) ∧
    (∀ a ∈ List.scanl applyEvent [0] (subscribeEvents (some 0) 1), a ≠ []) ∧
    1 ∈ applyEvents [0] (subscribeEvents (some 0) 1) := by
  have h := update_subscribes_before_unsubscribing [0] 0 1 (by decide) (by decide)
  exact ⟨by decide, by decide, h.1, h.2.1⟩

theorem arInv_acquire {V E : Type} {k : String} {s : CacheState V E} {live : List Nat}
    (h : ARInv k s live) :
    ARInv k (acquireOk k s).1 (s.nextId :: live) ∧
    (acquireOk k s).1.nextId = s.nextId + 1 ∧
    (acquireOk k s).1.factoryLog = s.factoryLog ∧
    (acquireOk k s).1.unsubLog = s.unsubLog ∧
    (acquireOk k s).1.scheduled = s.scheduled := by
  obtain ⟨ent, hent, hrc, hpr⟩ := h.entry
  have hs1 : (acquireOk k s).1 = { s with
      entries := updateEntry k
        (fun e => { e with refCount := e.refCount + 1, pendingRelease := false }) s.entries,
      handles := ⟨s.nextId, k, false⟩ :: s.handles,
      nextId := s.nextId + 1,
      delivered := s.delivered ++ replayFor s.nextId ent } := by
    simp [acquireOk, hent]
  rw [hs1]
  refine ⟨⟨?_, ?_, ?_, ?_, ?_⟩, rfl, rfl, rfl, rfl⟩
  · refine ⟨{ ent with refCount := ent.refCount + 1, pendingRelease := false }, ?_, ?_, ?_⟩
    · show lookupEntry k (updateEntry k
        (fun e => { e with refCount := e.refCount + 1, pendingRelease := false }) s.entries) = _
      rw [lookupEntry_update_self, hent]
      rfl
    · simp [hrc]
    · simp
  · intro j
    show (∃ hd, findHandle j (⟨s.nextId, k, false⟩ :: s.handles) = some hd ∧
      hd.key = k ∧ hd.released = false) ↔ j ∈ s.nextId :: live
    rw [findHandle_cons]
    by_cases hj : j = s.nextId
    · subst hj
      simp
    · rw [if_neg (fun hh : s.nextId = j => hj hh.symm)]
      simp [List.mem_cons, hj, h.liveIff j]
  · intro j hj
    show j < s.nextId + 1
    rcases List.mem_cons.mp hj with h1 | h2
    · omega
    · have := h.liveLt j h2
      omega
  · refine List.nodup_cons.mpr ⟨?_, h.nodup⟩
    intro hmem
    have := h.liveLt _ hmem
    omega
  · intro hcon
    exact absurd hcon (List.cons_ne_nil _ _)

theorem arInv_release {V E : Type} {k : String} {s : CacheState V E} {live : List Nat} {i : Nat}
    (h : ARInv k s live) (hi : i ∈ live) :
    ARInv k (release i s) (live.erase i) ∧
    (release i s).nextId = s.nextId ∧
    (release i s).factoryLog = s.factoryLog ∧
    (release i s).unsubLog = s.unsubLog := by
  obtain ⟨hd, hf, hkey, hrel⟩ := (h.liveIff i).mpr hi
  obtain ⟨ent, hent, hrc, hpr⟩ := h.entry
  have hid : hd.id = i := findHandle_id hf
  have hlen : 0 < live.length := List.length_pos.mpr (List.ne_nil_of_mem hi)
  have hkey' : lookupEntry hd.key s.entries = some ent := by
    rw [hkey]
    exact hent
  have herase : (live.erase i).length = live.length - 1 := List.length_erase_of_mem hi
  have hliveIff : ∀ j : Nat,
      (∃ hd', findHandle j (markReleased i s.handles) = some hd' ∧ hd'.key = k ∧
        hd'.released = false) ↔ j ∈ live.erase i := by
    intro j
    rw [findHandle_markReleased]
    by_cases hj : j = i
    · subst hj
      rw [hf]
      simp [hid, h.nodup.mem_erase_iff]
    · cases hfj : findHandle j s.handles with
      | none =>
        have hiff := h.liveIff j
        rw [hfj] at hiff
        simp only [reduceCtorEq, false_and, exists_false, false_iff] at hiff
        rw [List.mem_erase_of_ne hj]
        simp [hiff]
      | some hd' =>
        have hiff := h.liveIff j
        rw [hfj] at hiff
        simp only [Option.some.injEq] at hiff
        have hid' : hd'.id = j := findHandle_id hfj
        have hgj : (if hd'.id = i then ({ hd' with released := true } : Handle) else hd') = hd' :=
          if_neg (by rw [hid']; exact hj)
        rw [List.mem_erase_of_ne hj]
        simp only [Option.map_some', hgj, Option.some.injEq]
        exact hiff
  by_cases hc : ent.refCount - 1 = 0
  · have hs' : release i s = { s with
        handles := markReleased i s.handles,
        entries := updateEntry hd.key
          (fun e => { e with refCount := ent.refCount - 1, pendingRelease := true }) s.entries,
        scheduled := s.scheduled ++ [hd.key] } := by
      simp [release, hf, hrel, hkey', hc]
    have he0 : live.erase i = [] := by
      refine List.length_eq_zero.mp ?_
      omega
    rw [hs']
    refine ⟨⟨?_, ?_, ?_, ?_, ?_⟩, rfl, rfl, rfl⟩
    · refine ⟨{ ent with refCount := ent.refCount - 1, pendingRelease := true }, ?_, ?_, ?_⟩
      · show lookupEntry k (updateEntry hd.key
          (fun e => { e with refCount := ent.refCount - 1, pendingRelease := true }) s.entries) = _
        rw [hkey, lookupEntry_update_self, hent]
        rfl
      · simp [herase, hrc]
      · simp [he0]
    · exact hliveIff
    · intro j hj
      exact h.liveLt j (List.mem_of_mem_erase hj)
    · exact h.nodup.erase i
    · intro _
      simp [hkey]
  · have hs' : release i s = { s with
        handles := markReleased i s.handles,
        entries := updateEntry hd.key
          (fun e => { e with refCount := ent.refCount - 1 }) s.entries } := by
      simp [release, hf, hrel, hkey', hc]
    have hprf : ent.pendingRelease = false := by
      refine Bool.eq_false_iff.mpr (fun htrue => ?_)
      rw [hpr.mp htrue] at hi
      cases hi
    have herase_ne : live.erase i ≠ [] := by
      rw [← List.length_pos, herase]
      omega
    rw [hs']
    refine ⟨⟨?_, ?_, ?_, ?_, ?_⟩, rfl, rfl, rfl⟩
    · refine ⟨{ ent with refCount := ent.refCount - 1 }, ?_, ?_, ?_⟩
      · show lookupEntry k (updateEntry hd.key
          (fun e => { e with refCount := ent.refCount - 1 }) s.entries) = _
        rw [hkey, lookupEntry_update_self, hent]
        rfl
      · simp [herase, hrc]
      · simp [hprf, herase_ne]
    · exact hliveIff
    · intro j hj
      exact h.liveLt j (List.mem_of_mem_erase hj)
    · exact h.nodup.erase i
    · intro hcon
      exact absurd hcon herase_ne

theorem runAR_inv {V E : Type} (k : String) :
    ∀ (t : List AROp) (s : CacheState V E) (live : List Nat),
      ARInv k s live → validFrom live s.nextId t = true →
      ARInv k (runAR k s t) (finalLive live s.nextId t).1 ∧
      (runAR k s t).factoryLog = s.factoryLog ∧
      (runAR k s t).unsubLog = s.unsubLog := by
  intro t
  induction t with
  | nil =>
    intro s live h _
    exact ⟨h, rfl, rfl⟩
  | cons op t ih =>
    intro s live h hv
    cases op with
    | acq =>
      obtain ⟨h1, h2, h3, h4, -⟩ := arInv_acquire h
      have hv' : validFrom (s.nextId :: live) (acquireOk k s).1.nextId t = true := by
        rw [h2]
        exact hv
      obtain ⟨r1, r2, r3⟩ := ih (acquireOk k s).1 (s.nextId :: live) h1 hv'
      refine ⟨?_, ?_, ?_⟩
      · rw [show finalLive live s.nextId (AROp.acq :: t) =
          finalLive (s.nextId :: live) (s.nextId + 1) t from rfl, ← h2]
        exact r1
      · show (runAR k (acquireOk k s).1 t).factoryLog = s.factoryLog
        rw [r2, h3]
      · show (runAR k (acquireOk k s).1 t).unsubLog = s.unsubLog
        rw [r3, h4]
    | rel i =>
      have hv2 := hv
      rw [show validFrom live s.nextId (AROp.rel i :: t) =
        (live.contains i && validFrom (live.erase i) s.nextId t) from rfl,
        Bool.and_eq_true] at hv2
      have hi : i ∈ live := List.elem_iff.mp hv2.1
      obtain ⟨h1, h2, h3, h4⟩ := arInv_release h hi
      have hv' : validFrom (live.erase i) (release i s).nextId t = true := by
        rw [h2]
        exact hv2.2
      obtain ⟨r1, r2, r3⟩ := ih (release i s) (live.erase i) h1 hv'
      refine ⟨?_, ?_, ?_⟩
      · rw [show finalLive live s.nextId (AROp.rel i :: t) =
          finalLive (live.erase i) s.nextId t from rfl, ← h2]
        exact r1
      · show (runAR k (release i s) t).factoryLog = s.factoryLog
        rw [r2, h3]
      · show (runAR k (release i s) t).unsubLog = s.unsubLog
        rw [r3, h4]

theorem foldl_pruneStep_absent {V E : Type} (k : String) :
    ∀ (l : List String) (s : CacheState V E),
      lookupEntry k s.entries = none →
      lookupEntry k (l.foldl pruneStep s).entries = none ∧
      unsubCount k (l.foldl pruneStep s) = unsubCount k s := by
  intro l
  induction l with
  | nil =>
    intro s h
    exact ⟨h, rfl⟩
  | cons a l ih =>
    intro s h
    have hstep : lookupEntry k (pruneStep s a).entries = none ∧
        unsubCount k (pruneStep s a) = unsubCount k s := by
      cases hl : lookupEntry a s.entries with
      | none =>
        rw [show pruneStep s a = s by simp [pruneStep, hl]]
        exact ⟨h, rfl⟩
      | some enta =>
        by_cases hc : enta.refCount = 0 ∧ enta.pendingRelease = true
        · have hka : ¬ k = a := fun hka => by rw [hka, hl] at h; cases h
          have hps : pruneStep s a = { s with
              entries := removeEntry a s.entries,
              unsubLog := a :: s.unsubLog } := by
            simp [pruneStep, hl, hc]
          rw [hps]
          constructor
          · show lookupEntry k (removeEntry a s.entries) = none
            rw [lookupEntry_remove_ne hka]
            exact h
          · show countKey k (a :: s.unsubLog) = countKey k s.unsubLog
            exact countKey_cons_ne (fun hak => hka hak.symm) _
        · rw [show pruneStep s a = s by simp [pruneStep, hl, hc]]
          exact ⟨h, rfl⟩
    obtain ⟨ih1, ih2⟩ := ih (pruneStep s a) hstep.1
    exact ⟨ih1, by rw [List.foldl_cons, ih2, hstep.2]⟩

theorem foldl_pruneStep_removes {V E : Type} (k : String) :
    ∀ (l : List String) (s : CacheState V E) (ent : CacheEntry V E),
      lookupEntry k s.entries = some ent → ent.refCount = 0 → ent.pendingRelease = true →
      k ∈ l →
      lookupEntry k (l.foldl pruneStep s).entries = none ∧
      unsubCount k (l.foldl pruneStep s) = unsubCount k s + 1 := by
  intro l
  induction l with
  | nil =>
    intro s ent _ _ _ hk
    cases hk
  | cons a l ih =>
    intro s ent hl h0 hp hk
    by_cases hak : a = k
    · subst hak
      have hps : pruneStep s a = { s with
          entries := removeEntry a s.entries,
          unsubLog := a :: s.unsubLog } := by
        simp [pruneStep, hl, h0, hp]
      have habsent : lookupEntry a (pruneStep s a).entries = none := by
        rw [hps]
        show lookupEntry a (removeEntry a s.entries) = none
        exact lookupEntry_remove_self a s.entries
      obtain ⟨f1, f2⟩ := foldl_pruneStep_absent a l (pruneStep s a) habsent
      refine ⟨f1, ?_⟩
      rw [List.foldl_cons, f2, hps]
      show countKey a (a :: s.unsubLog) = countKey a s.unsubLog + 1
      exact countKey_cons_self a _
    · have hk' : k ∈ l := by
        rcases List.mem_cons.mp hk with h1 | h2
        · exact absurd h1.symm hak
        · exact h2
      have hstep : lookupEntry k (pruneStep s a).entries = some ent ∧
          unsubCount k (pruneStep s a) = unsubCount k s := by
        cases hla : lookupEntry a s.entries with
        | none =>
          rw [show pruneStep s a = s by simp [pruneStep, hla]]
          exact ⟨hl, rfl⟩
        | some enta =>
          by_cases hc : enta.refCount = 0 ∧ enta.pendingRelease = true
          · have hps : pruneStep s a = { s with
                entries := removeEntry a s.entries,
                unsubLog := a :: s.unsubLog } := by
              simp [pruneStep, hla, hc]
            rw [hps]
            constructor
            · show lookupEntry k (removeEntry a s.entries) = some ent
              rw [lookupEntry_remove_ne (fun hka => hak hka.symm)]
              exact hl
            · show countKey k (a :: s.unsubLog) = countKey k s.unsubLog
              exact countKey_cons_ne hak _
          · rw [show pruneStep s a = s by simp [pruneStep, hla, hc]]
            exact ⟨hl, rfl⟩
      obtain ⟨ih1, ih2⟩ := ih (pruneStep s a) ent hstep.1 h0 hp hk'
      exact ⟨ih1, by rw [List.foldl_cons, ih2, hstep.2]⟩

theorem prune_removes {V E : Type} {k : String} {s : CacheState V E} {ent : CacheEntry V E}
    (hl : lookupEntry k s.entries = some ent) (h0 : ent.refCount = 0)
    (hp : ent.pendingRelease = true) (hs : k ∈ s.scheduled) :
    lookupEntry k (prune s).entries = none ∧
    unsubCount k (prune s) = unsubCount k s + 1 :=
  foldl_pruneStep_removes k s.scheduled s ent hl h0 hp hs

theorem prune_prune {V E : Type} (s : CacheState V E) : prune (prune s) = prune s := rfl

/-- C2: after N `acquire()` and N `release()` calls on the same key, in any
order in which each handle is released after its acquire and every handle is
released, the entry is `pendingRelease` at refCount 0; a subsequent `prune()`
removes the entry and calls the underlying unsubscribe exactly once, and a
further `prune()` performs no additional unsubscribe (it is a no-op). -/
theorem refcount_correct_and_prune_idempotent {V E : Type} (k : String) (s : CacheState V E)
    (t : List AROp)
    (hentry : lookupEntry k s.entries = none)
    (hhandles : ∀ hd ∈ s.handles, hd.key ≠ k)
    (hvalid : validFrom [] s.nextId t = true)
    (hdone : (finalLive [] s.nextId t).1 = [])
    (hne : t ≠ []) :
    (∃ ent, lookupEntry k (runAR k s t).entries = some ent ∧ ent.refCount = 0 ∧
      ent.pendingRelease = true) ∧
    lookupEntry k (prune (runAR k s t)).entries = none ∧
    unsubCount k (prune (runAR k s t)) = unsubCount k s + 1 ∧
    prune (prune (runAR k s t)) = prune (runAR k s t) := by
  cases t with
  | nil => exact absurd rfl hne
  | cons op t' =>
    cases op with
    | rel i =>
      rw [show validFrom [] s.nextId (AROp.rel i :: t') =
        (([] : List Nat).contains i && validFrom (([] : List Nat).erase i) s.nextId t')
        from rfl] at hvalid
      simp at hvalid
    | acq =>
      have hinv1 : ARInv k (acquireOk k s).1 [s.nextId] := by
        have hs1 : (acquireOk k s).1 = { s with
            entries := (k, ⟨1, false, none, none⟩) :: s.entries,
            handles := ⟨s.nextId, k, false⟩ :: s.handles,
            nextId := s.nextId + 1,
            factoryLog := k :: s.factoryLog } := by
          simp [acquireOk, hentry]
        rw [hs1]
        refine ⟨?_, ?_, ?_, ?_, ?_⟩
        · exact ⟨⟨1, false, none, none⟩, by simp [lookupEntry], rfl, by simp⟩
        · intro j
          show (∃ hd, findHandle j (⟨s.nextId, k, false⟩ :: s.handles) = some hd ∧
            hd.key = k ∧ hd.released = false) ↔ j ∈ [s.nextId]
          rw [findHandle_cons]
          by_cases hj : j = s.nextId
          · subst hj
            simp
          · rw [if_neg (fun hh : s.nextId = j => hj hh.symm)]
            simp only [List.mem_singleton, hj, iff_false, not_exists, not_and]
            intro hd hsome hkey
            exact absurd hkey (hhandles hd (findHandle_mem hsome))
        · intro j hj
          show j < s.nextId + 1
          have : j = s.nextId := List.mem_singleton.mp hj
          omega
        · simp
        · intro hcon
          cases hcon
      have hnext : (acquireOk k s).1.nextId = s.nextId + 1 := by
        simp [acquireOk, hentry]
      have hv' : validFrom [s.nextId] (acquireOk k s).1.nextId t' = true := by
        rw [hnext]
        exact hvalid
      obtain ⟨rinv, rfac, runsub⟩ := runAR_inv k t' (acquireOk k s).1 [s.nextId] hinv1 hv'
      have hfin : (finalLive [s.nextId] (acquireOk k s).1.nextId t').1 = [] := by
        rw [hnext]
        exact hdone
      rw [hfin] at rinv
      obtain ⟨ent, hent, hrc, hpr⟩ := rinv.entry
      have hpr' : ent.pendingRelease = true := hpr.mpr rfl
      have hrc0 : ent.refCount = 0 := hrc
      have hsched : k ∈ (runAR k (acquireOk k s).1 t').scheduled := rinv.sched rfl
      obtain ⟨p1, p2⟩ := prune_removes hent hrc0 hpr' hsched
      have hu : unsubCount k (runAR k (acquireOk k s).1 t') = unsubCount k s := by
        rw [unsubCount, runsub]
        show countKey k (acquireOk k s).1.unsubLog = countKey k s.unsubLog
        simp [acquireOk, hentry]
      refine ⟨⟨ent, hent, hrc0, hpr'⟩, p1, ?_, prune_prune _⟩
      show unsubCount k (prune (runAR k (acquireOk k s).1 t')) = unsubCount k s + 1
      rw [p2, hu]

theorem refcount_correct_and_prune_idempotent_witness :
    lookupEntry "/a" (emptyCache Nat Nat).entries = none ∧
    (∀ hd ∈ (emptyCache Nat Nat).handles, hd.key ≠ "/a") ∧
    validFrom [] (emptyCache Nat Nat).nextId
      [AROp.acq, AROp.acq, AROp.rel 0, AROp.rel 1] = true ∧
    (finalLive [] (emptyCache Nat Nat).nextId
      [AROp.acq, AROp.acq, AROp.rel 0, AROp.rel 1]).1 = [] ∧
    (∃ ent, lookupEntry "/a" (runAR "/a" (emptyCache Nat Nat)
        [AROp.acq, AROp.acq, AROp.rel 0, AROp.rel 1]).entries = some ent ∧
      ent.refCount = 0 ∧ ent.pendingRelease = true) ∧
    lookupEntry "/a" (prune (runAR "/a" (emptyCache Nat Nat)
        [AROp.acq, AROp.acq, AROp.rel 0, AROp.rel 1])).entries = none ∧
    unsubCount "/a" (prune (runAR "/a" (emptyCache Nat Nat)
        [AROp.acq, AROp.acq, AROp.rel 0, AROp.rel 1])) =
      unsubCount "/a" (emptyCache Nat Nat) + 1 := by
  have h := refcount_correct_and_prune_idempotent "/a" (emptyCache Nat Nat)
    [AROp.acq, AROp.acq, AROp.rel 0, AROp.rel 1] rfl
    (by intro hd hmem; cases hmem) (by decide) rfl (by decide)
  refine ⟨rfl, ?_, by decide, rfl, h.1, h.2.1, h.2.2.1⟩
  intro hd hmem
  cases hmem

end ReactIo
